import Mathlib

/-!
Shallow embedding of the savings-ledger engine of the SavingsPlan repository
(`src/app.py` and `src/utils/savings_tracker.py`).

Conventions of the embedding:
* money amounts and fractions are rationals (`Rat`); the numeric inputs of the app
  are integers from `st.number_input(min_value=0, ...)`, but values flowing
  through uploaded CSVs and pandas columns are arbitrary numerics, so fields
  are kept at `Rat`;
* timestamps are `Int` instants (parse_dates gives a totally ordered instant;
  only ordering and equality of timestamps matter to the code);
* a pandas DataFrame of rows is a `List` of structures, in row order;
* `pd.concat` is `List.append`, pandas drop_duplicates on a key subset with keep set to last is
  `dropDuplicatesKeepLast` (keeps the last occurrence of each key, at its
  original position); sort_values on the timestamp column orders rows by
  timestamp, but its default quicksort kind is documented as unstable, so the
  guaranteed contract is only: the output is SOME timestamp-sorted
  permutation of the input (`IsMergeResult` for the merge pipeline); the
  executable model `sortByTimestamp` picks the stable `List.insertionSort`
  as one admissible refinement and is used where the order of
  equal-timestamp rows is immaterial;
* the Python idiom `x or 1` on a number is `if x = 0 then 1 else x` (`pyOr1`);
* `.round(2)` is rounding to an integer multiple of 1/100 (`round2`; the tie
  rule at exact half-cents is immaterial to every stated tolerance property);
* `pd.read_csv` is an external library call; its outcome enters the model as
  an `Except String (List Entry)` value, and the `try/except` of the upload
  handler is the `match` in `uploadHistory`.
-/

namespace SavingsApp

/-- One row of the history table (`st.session_state.history`,
columns fixed at `app.py` lines 33-36). -/
structure Entry where
  timestamp : Int
  goal : Rat
  monthly_target : Rat
  current_saved : Rat
  remaining : Rat
  progress_fraction : Rat
  happiness_fraction : Rat
deriving DecidableEq, Repr

/-- Python `x or 1` for a numeric `x`: `1` exactly when `x` is zero (falsy). -/
def pyOr1 (x : Rat) : Rat := if x = 0 then 1 else x

/-- The three derived metrics computed on every render (`app.py` lines 150-154). -/
structure Metrics where
  progress_fraction : Rat
  remaining : Rat
  happiness_fraction : Rat
deriving DecidableEq, Repr

/-- `app.py` lines 150-154:
`progress = max(0, min(current_saved / (goal or 1), 1))`,
`remaining = max(goal - current_saved, 0)`,
`happiness = max(0, min(current_saved / (monthly_target or 1), 1))`. -/
def computeMetrics (goal monthly_target current_saved : Rat) : Metrics where
  progress_fraction := max 0 (min (current_saved / pyOr1 goal) 1)
  remaining := max (goal - current_saved) 0
  happiness_fraction := max 0 (min (current_saved / pyOr1 monthly_target) 1)

/-- Qualitative label of the monthly status banner (`app.py` lines 180-185). -/
inductive Happiness where
  | Exceeded
  | Halfway
  | Behind
deriving DecidableEq, Repr

/-- `app.py` lines 180-185: `Exceeded` when `current_saved >= monthly_target`,
else `Halfway` when `current_saved >= 0.5 * monthly_target`, else `Behind`. -/
def classifyHappiness (current_saved monthly_target : Rat) : Happiness :=
  if monthly_target ≤ current_saved then .Exceeded
  else if (1 / 2 : Rat) * monthly_target ≤ current_saved then .Halfway
  else .Behind

/-- `src/utils/savings_tracker.py` lines 1-2 (standalone helper module,
not imported by `app.py`). -/
def calculate_progress (current_savings savings_goal : Rat) : Rat :=
  if 0 < savings_goal then current_savings / savings_goal * 100 else 0

/-- `src/utils/savings_tracker.py` lines 4-5 (standalone helper module,
not imported by `app.py`); note: no clamping at zero here. -/
def calculate_distance_from_goal (current_savings savings_goal : Rat) : Rat :=
  savings_goal - current_savings

/-- `src/utils/savings_tracker.py` lines 7-13 (standalone helper module,
not imported by `app.py`). -/
def happiness_meter (expected_savings actual_savings : Rat) : String :=
  if actual_savings < expected_savings then "😞 You strayed from your savings goal!"
  else if actual_savings = expected_savings then "😊 Great job! You met your savings goal!"
  else "🎉 Awesome! You exceeded your savings goal!"

/-- The dedup key of the drop_duplicates call, the pair of timestamp and current_saved
(`app.py` line 65). -/
def dupKey (e : Entry) : Int × Rat := (e.timestamp, e.current_saved)

/-- Whether some row of `l` shares the dedup key of `e`. -/
def hasKey (l : List Entry) (e : Entry) : Bool :=
  l.any fun x => decide (dupKey x = dupKey e)

/-- The drop_duplicates pass over the timestamp and current_saved key with keep set to last
(`app.py` line 65): a row survives exactly when no later row shares its key,
and survivors keep their original relative order. -/
def dropDuplicatesKeepLast : List Entry → List Entry
  | [] => []
  | e :: rest =>
    if hasKey rest e then dropDuplicatesKeepLast rest
    else e :: dropDuplicatesKeepLast rest

/-- Timestamp order used by sort_values on the timestamp column. -/
def tsLe (a b : Entry) : Prop := a.timestamp ≤ b.timestamp

instance : DecidableRel tsLe := fun a b => inferInstanceAs (Decidable (a.timestamp ≤ b.timestamp))

instance : IsTotal Entry tsLe := ⟨fun a b => Int.le_total a.timestamp b.timestamp⟩

instance : IsTrans Entry tsLe := ⟨fun _ _ _ h1 h2 => le_trans h1 h2⟩

/-- sort_values by timestamp (`app.py` line 66) as an executable sort on
rows. The pandas default sort kind (quicksort) is documented as unstable, so
the code fixes no particular order among rows with equal timestamps; this
model picks the stable `List.insertionSort` as one admissible refinement and
is relied on only where the order of equal-timestamp rows is immaterial
(tie-order-sensitive reasoning goes through `IsMergeResult` instead). -/
def sortByTimestamp (l : List Entry) : List Entry := List.insertionSort tsLe l

/-- The history-upload merge (`app.py` lines 63-67): concatenate, dedup by
`(timestamp, current_saved)` keeping the later occurrence, sort by timestamp
(under the stable refinement `sortByTimestamp`). -/
def merge (existing incoming : List Entry) : List Entry :=
  sortByTimestamp (dropDuplicatesKeepLast (existing ++ incoming))

/-- The postcondition the merge code (`app.py` lines 63-67) guarantees about
its output for ANY sort kind: the result is some timestamp-sorted permutation
of the concat-then-dedup-keep-last rows. Which sorted permutation is produced
at timestamp ties is unspecified (the default pandas sort kind is unstable). -/
def IsMergeResult (existing incoming result : List Entry) : Prop :=
  List.Perm result (dropDuplicatesKeepLast (existing ++ incoming)) ∧
    result.Pairwise tsLe

/-- The upload handler (`app.py` lines 60-71): on a successful parse the
session ledger becomes the merge and a success message is shown; on a parse
exception the handler catches it, shows an error message, and leaves the
ledger untouched. Returns (new ledger state, error message if any). -/
def uploadHistory (ledger : List Entry) (parsed : Except String (List Entry)) :
    List Entry × Option String :=
  match parsed with
  | .ok df => (merge ledger df, none)
  | .error e => (ledger, some e)

/-- The Save Entry handler (`app.py` lines 156-168): `pd.concat` of the
history with the one-row frame of the new record, in that order. -/
def appendEntry (ledger : List Entry) (e : Entry) : List Entry := ledger ++ [e]

/-- One row of the allocation table (`st.session_state.allocs`, columns
`Usage` and `Goal Allocation`; the latter already passed through
`pd.to_numeric(...).fillna(0)` of `app.py` lines 105-107). -/
structure AllocRow where
  usage : String
  goal_allocation : Rat
deriving DecidableEq, Repr

/-- pandas `.round(2)`: round to an integer number of hundredths. -/
def round2 (x : Rat) : Rat := (round (x * 100) : Int) / 100

/-- total_saved_history, the sum of the current_saved column of the history
(`app.py` line 117, and `total_saved` at line 248). -/
def totalSavedHistory (ledger : List Entry) : Rat :=
  (ledger.map fun e => e.current_saved).sum

/-- Sidebar column `Amount Allocated` (`app.py` lines 118-120):
`(goal_allocation / (goal_val or 1) * total_saved_history).round(2)`.
`goal_val` is the integer goal input (`st.number_input(min_value=0)`). -/
def amountAllocated (goal_val : Int) (total_saved : Rat) (row : AllocRow) : Rat :=
  round2 (row.goal_allocation / pyOr1 (goal_val : Rat) * total_saved)

/-- Sidebar column `Amount Remaining` (`app.py` lines 121-123):
`(goal_allocation - amount_allocated).clip(lower=0).round(2)`. -/
def amountRemaining (goal_val : Int) (total_saved : Rat) (row : AllocRow) : Rat :=
  round2 (max (row.goal_allocation - amountAllocated goal_val total_saved row) 0)

/-- The summary part of the PDF report (`app.py` lines 248-257, 292). -/
structure Report where
  total_saved : Rat
  goal_val : Rat
  pct_to_goal : Rat
  recent : List Entry
deriving DecidableEq, Repr

/-- Report assembly (`app.py` lines 248-252 and 292):
total_saved is the sum of the current_saved column,
`goal_val = history['goal'].iloc[-1] if not history.empty else 0`,
`pct_to_goal = total_saved / max(goal_val, 1)`,
recent is tail(5) of the history after sort_values by timestamp. -/
def buildReport (ledger : List Entry) : Report where
  total_saved := totalSavedHistory ledger
  goal_val :=
    match ledger.getLast? with
    | some e => e.goal
    | none => 0
  pct_to_goal :=
    totalSavedHistory ledger /
      max (match ledger.getLast? with
           | some e => e.goal
           | none => 0) 1
  recent :=
    (sortByTimestamp ledger).drop ((sortByTimestamp ledger).length - 5)

/-! ### Lemmas about the dedup pass -/

/-- The key relation of the dedup: pairwise distinctness target. -/
def keyNe (a b : Entry) : Prop := dupKey a ≠ dupKey b

theorem hasKey_iff {l : List Entry} {e : Entry} :
    hasKey l e = true ↔ ∃ x ∈ l, dupKey x = dupKey e := by
  simp [hasKey, List.any_eq_true]

theorem hasKey_eq_false_iff {l : List Entry} {e : Entry} :
    hasKey l e = false ↔ ∀ x ∈ l, dupKey x ≠ dupKey e := by
  simp [hasKey, List.any_eq_false]

theorem hasKey_append (a b : List Entry) (e : Entry) :
    hasKey (a ++ b) e = (hasKey a e || hasKey b e) := by
  simp [hasKey, List.any_append]

theorem dropDuplicatesKeepLast_sublist :
    ∀ l : List Entry, List.Sublist (dropDuplicatesKeepLast l) l := by
  intro l
  induction l with
  | nil => simp [dropDuplicatesKeepLast]
  | cons e rest ih =>
    rw [dropDuplicatesKeepLast]
    by_cases h : hasKey rest e = true
    · rw [if_pos h]
      exact ih.cons e
    · rw [if_neg h]
      exact ih.cons₂ e

theorem mem_of_mem_dropDuplicatesKeepLast {l : List Entry} {e : Entry}
    (h : e ∈ dropDuplicatesKeepLast l) : e ∈ l :=
  (dropDuplicatesKeepLast_sublist l).mem h

theorem hasKey_dropDuplicatesKeepLast (l : List Entry) (e : Entry) :
    hasKey (dropDuplicatesKeepLast l) e = hasKey l e := by
  induction l with
  | nil => rfl
  | cons x rest ih =>
    rw [dropDuplicatesKeepLast]
    by_cases h : hasKey rest x = true
    · rw [if_pos h]
      rw [ih]
      show hasKey rest e = hasKey (x :: rest) e
      by_cases hxe : dupKey x = dupKey e
      · have h1 : hasKey rest e = true := by
          rcases hasKey_iff.mp h with ⟨y, hy, hk⟩
          exact hasKey_iff.mpr ⟨y, hy, hk.trans hxe⟩
        have h2 : hasKey (x :: rest) e = true :=
          hasKey_iff.mpr ⟨x, List.mem_cons_self x rest, hxe⟩
        rw [h1, h2]
      · simp [hasKey, hxe]
    · rw [if_neg h]
      show hasKey (x :: dropDuplicatesKeepLast rest) e = hasKey (x :: rest) e
      simp [hasKey] at ih ⊢
      rw [ih]

theorem pairwise_keyNe_dropDuplicatesKeepLast (l : List Entry) :
    (dropDuplicatesKeepLast l).Pairwise keyNe := by
  induction l with
  | nil => exact List.Pairwise.nil
  | cons e rest ih =>
    rw [dropDuplicatesKeepLast]
    by_cases h : hasKey rest e = true
    · rw [if_pos h]
      exact ih
    · rw [if_neg h]
      refine List.Pairwise.cons ?_ ih
      intro b hb
      have hb' : b ∈ rest := mem_of_mem_dropDuplicatesKeepLast hb
      have := hasKey_eq_false_iff.mp (Bool.eq_false_iff.mpr h) b hb'
      exact fun hk => this hk.symm

theorem dropDuplicatesKeepLast_eq_self {l : List Entry}
    (h : l.Pairwise keyNe) : dropDuplicatesKeepLast l = l := by
  induction l with
  | nil => rfl
  | cons e rest ih =>
    rw [dropDuplicatesKeepLast]
    have hrest : hasKey rest e = false := by
      rw [hasKey_eq_false_iff]
      intro x hx
      exact fun hk => (List.pairwise_cons.mp h).1 x hx hk.symm
    rw [if_neg (by simp [hrest]), ih (List.pairwise_cons.mp h).2]

theorem dropDuplicatesKeepLast_append (a b : List Entry) :
    dropDuplicatesKeepLast (a ++ b) =
      (dropDuplicatesKeepLast a).filter (fun e => !hasKey b e) ++
        dropDuplicatesKeepLast b := by
  induction a with
  | nil => simp [dropDuplicatesKeepLast]
  | cons e a' ih =>
    rw [List.cons_append, dropDuplicatesKeepLast, dropDuplicatesKeepLast,
      hasKey_append]
    cases hae : hasKey a' e with
    | true =>
      rw [Bool.true_or, if_pos rfl, if_pos rfl, ih]
    | false =>
      rw [Bool.false_or, if_neg (show ¬(false = true) by simp)]
      cases hbe : hasKey b e with
      | true =>
        rw [if_pos rfl, ih, List.filter_cons_of_neg (by simp [hbe])]
      | false =>
        rw [if_neg (show ¬(false = true) by simp), ih,
          List.filter_cons_of_pos (by simp [hbe]), List.cons_append]

theorem hasKey_of_mem {l : List Entry} {e : Entry} (h : e ∈ l) :
    hasKey l e = true :=
  hasKey_iff.mpr ⟨e, h, rfl⟩

theorem filter_not_hasKey_dropDuplicatesKeepLast (x : List Entry) :
    (dropDuplicatesKeepLast x).filter (fun e => !hasKey x e) = [] := by
  rw [List.filter_eq_nil_iff]
  intro e he
  simp [hasKey_of_mem (mem_of_mem_dropDuplicatesKeepLast he)]

/-! ### Lemmas about the stable sort pass -/

theorem tsLe_trans {a b c : Entry} (h1 : tsLe a b) (h2 : tsLe b c) : tsLe a c :=
  Int.le_trans h1 h2

theorem tsLe_of_not_tsLe {a b : Entry} (h : ¬ tsLe a b) : tsLe b a :=
  Int.le_of_lt (Int.lt_of_not_ge h)

theorem orderedInsert_swap (a b : Entry) (h : ¬ tsLe a b) :
    ∀ s : List Entry,
      List.orderedInsert tsLe a (List.orderedInsert tsLe b s)
        = List.orderedInsert tsLe b (List.orderedInsert tsLe a s) := by
  intro s
  have hba : tsLe b a := tsLe_of_not_tsLe h
  induction s with
  | nil => simp [List.orderedInsert, h, hba]
  | cons c s' ih =>
    by_cases hbc : tsLe b c
    · by_cases hac : tsLe a c
      · simp [List.orderedInsert, h, hba, hbc, hac]
      · simp [List.orderedInsert, h, hba, hbc, hac]
    · have hac : ¬ tsLe a c := fun hac => hbc (tsLe_trans hba hac)
      simp [List.orderedInsert, hbc, hac, ih]

theorem foldr_orderedInsert (a : Entry) :
    ∀ (s t : List Entry),
      List.foldr (List.orderedInsert tsLe) t (List.orderedInsert tsLe a s)
        = List.orderedInsert tsLe a (List.foldr (List.orderedInsert tsLe) t s) := by
  intro s
  induction s with
  | nil => intro t; rfl
  | cons b s' ih =>
    intro t
    by_cases hab : tsLe a b
    · rw [List.orderedInsert, if_pos hab]
      rfl
    · rw [List.orderedInsert, if_neg hab, List.foldr_cons, ih t, List.foldr_cons]
      exact (orderedInsert_swap a b hab _).symm

theorem foldr_insertionSort (t : List Entry) :
    ∀ a : List Entry,
      List.foldr (List.orderedInsert tsLe) t (List.insertionSort tsLe a)
        = List.foldr (List.orderedInsert tsLe) t a := by
  intro a
  induction a with
  | nil => rfl
  | cons x a' ih =>
    rw [List.insertionSort, foldr_orderedInsert, ih]
    rfl

theorem insertionSort_append (a b : List Entry) :
    List.insertionSort tsLe (a ++ b)
      = List.foldr (List.orderedInsert tsLe) (List.insertionSort tsLe b) a := by
  induction a with
  | nil => rfl
  | cons x a' ih => rw [List.cons_append, List.insertionSort, ih]; rfl

theorem insertionSort_insertionSort_append (a b : List Entry) :
    List.insertionSort tsLe (List.insertionSort tsLe a ++ b)
      = List.insertionSort tsLe (a ++ b) := by
  rw [insertionSort_append, insertionSort_append, foldr_insertionSort]

theorem orderedInsert_of_forall_tsLe {a : Entry} {m : List Entry}
    (h : ∀ x ∈ m, tsLe a x) : List.orderedInsert tsLe a m = a :: m := by
  cases m with
  | nil => rfl
  | cons b m' => rw [List.orderedInsert, if_pos (h b (List.mem_cons_self b m'))]

theorem filter_orderedInsert (p : Entry → Bool) (a : Entry) :
    ∀ s : List Entry, s.Pairwise tsLe →
      (List.orderedInsert tsLe a s).filter p
        = if p a then List.orderedInsert tsLe a (s.filter p) else s.filter p := by
  intro s
  induction s with
  | nil =>
    intro _
    cases hpa : p a
    · rw [if_neg (by simp)]
      simp [List.orderedInsert, hpa]
    · rw [if_pos rfl]
      simp [List.orderedInsert, hpa]
  | cons b s' ih =>
    intro hs
    have hb : ∀ y ∈ s', tsLe b y := (List.pairwise_cons.mp hs).1
    have hs' : s'.Pairwise tsLe := (List.pairwise_cons.mp hs).2
    by_cases hab : tsLe a b
    · rw [List.orderedInsert, if_pos hab]
      cases hpa : p a
      · rw [if_neg (by simp), List.filter_cons_of_neg (by simp [hpa])]
      · rw [if_pos rfl, List.filter_cons_of_pos (by simp [hpa])]
        have : ∀ x ∈ (b :: s').filter p, tsLe a x := by
          intro x hx
          have hx' : x ∈ b :: s' := List.mem_of_mem_filter hx
          rcases List.mem_cons.mp hx' with rfl | hx''
          · exact hab
          · exact tsLe_trans hab (hb x hx'')
        rw [orderedInsert_of_forall_tsLe this]
    · rw [List.orderedInsert, if_neg hab]
      cases hpb : p b
      · rw [List.filter_cons_of_neg (by simp [hpb]), ih hs',
          List.filter_cons_of_neg (by simp [hpb])]
      · rw [List.filter_cons_of_pos (by simp [hpb]), ih hs',
          List.filter_cons_of_pos (by simp [hpb])]
        cases hpa : p a
        · rw [if_neg (by simp), if_neg (by simp)]
        · rw [if_pos rfl, if_pos rfl, List.orderedInsert, if_neg hab]

theorem filter_insertionSort (p : Entry → Bool) :
    ∀ l : List Entry,
      (List.insertionSort tsLe l).filter p
        = List.insertionSort tsLe (l.filter p) := by
  intro l
  induction l with
  | nil => rfl
  | cons a l' ih =>
    rw [List.insertionSort,
      filter_orderedInsert p a _ (List.sorted_insertionSort tsLe l'), ih]
    cases hpa : p a
    · rw [if_neg (by simp), List.filter_cons_of_neg (by simp [hpa])]
    · rw [if_pos rfl, List.filter_cons_of_pos (by simp [hpa]), List.insertionSort]

/-! ### Lemmas about the merge -/

theorem keyNe_symmetric : Symmetric keyNe := fun _ _ h e => h e.symm

theorem merge_def (l x : List Entry) :
    merge l x = List.insertionSort tsLe (dropDuplicatesKeepLast (l ++ x)) := rfl

theorem merge_perm_dropDuplicatesKeepLast (l x : List Entry) :
    List.Perm (merge l x) (dropDuplicatesKeepLast (l ++ x)) :=
  List.perm_insertionSort tsLe _

theorem merge_pairwise_keyNe (l x : List Entry) : (merge l x).Pairwise keyNe :=
  (List.Perm.pairwise_iff (fun h e => h e.symm)
      (merge_perm_dropDuplicatesKeepLast l x)).mpr
    (pairwise_keyNe_dropDuplicatesKeepLast _)

theorem merge_sorted (l x : List Entry) : (merge l x).Pairwise tsLe :=
  List.sorted_insertionSort tsLe _

theorem mem_dropDuplicatesKeepLast_lastOcc :
    ∀ {c : List Entry} {e : Entry}, e ∈ dropDuplicatesKeepLast c →
      ∃ l₁ l₂, c = l₁ ++ e :: l₂ ∧ ∀ x ∈ l₂, dupKey x ≠ dupKey e := by
  intro c
  induction c with
  | nil => intro e h; simp [dropDuplicatesKeepLast] at h
  | cons y rest ih =>
    intro e h
    rw [dropDuplicatesKeepLast] at h
    by_cases hy : hasKey rest y = true
    · rw [if_pos hy] at h
      obtain ⟨l₁, l₂, rfl, hl₂⟩ := ih h
      exact ⟨y :: l₁, l₂, rfl, hl₂⟩
    · rw [if_neg hy] at h
      rcases List.mem_cons.mp h with rfl | h'
      · exact ⟨[], rest, rfl, hasKey_eq_false_iff.mp (Bool.eq_false_iff.mpr hy)⟩
      · obtain ⟨l₁, l₂, rfl, hl₂⟩ := ih h'
        exact ⟨y :: l₁, l₂, rfl, hl₂⟩

theorem exists_key_in_dropDuplicatesKeepLast :
    ∀ {c : List Entry} {x : Entry}, x ∈ c →
      ∃ e ∈ dropDuplicatesKeepLast c, dupKey e = dupKey x := by
  intro c
  induction c with
  | nil => intro x h; cases h
  | cons y rest ih =>
    intro x h
    rw [dropDuplicatesKeepLast]
    by_cases hy : hasKey rest y = true
    · rw [if_pos hy]
      rcases List.mem_cons.mp h with rfl | h'
      · obtain ⟨z, hz, hk⟩ := hasKey_iff.mp hy
        obtain ⟨e, he, hek⟩ := ih hz
        exact ⟨e, he, hek.trans hk⟩
      · exact ih h'
    · rw [if_neg hy]
      rcases List.mem_cons.mp h with rfl | h'
      · exact ⟨x, List.mem_cons_self _ _, rfl⟩
      · obtain ⟨e, he, hek⟩ := ih h'
        exact ⟨e, List.mem_cons_of_mem y he, hek⟩

/-! ### Claim theorems for the merge -/

/-- Under the stable-sort refinement `merge` — i.e. for any execution whose
sort reproduces a fixed tie order — re-merging the same upload reproduces the
ledger exactly. (The code itself fixes no tie order; see `IsMergeResult`.) -/
theorem merge_stable_refinement_idempotent (L X : List Entry) :
    merge (merge L X) X = merge L X := by
  have hM : (merge L X).Pairwise keyNe := merge_pairwise_keyNe L X
  rw [merge_def (merge L X) X, dropDuplicatesKeepLast_append,
    dropDuplicatesKeepLast_eq_self hM]
  have hfilter : (merge L X).filter (fun e => !hasKey X e)
      = List.insertionSort tsLe
          ((dropDuplicatesKeepLast L).filter (fun e => !hasKey X e)) := by
    rw [merge_def, dropDuplicatesKeepLast_append, filter_insertionSort,
      List.filter_append, filter_not_hasKey_dropDuplicatesKeepLast,
      List.append_nil, List.filter_filter]
    simp only [Bool.and_self]
  rw [hfilter, insertionSort_insertionSort_append,
    merge_def, dropDuplicatesKeepLast_append]

/-- The executable merge is one admissible outcome of the merge contract. -/
theorem merge_isMergeResult (l x : List Entry) : IsMergeResult l x (merge l x) :=
  ⟨merge_perm_dropDuplicatesKeepLast l x, merge_sorted l x⟩

/-- Re-merging the same incoming rows into any admissible merge result leaves
the dedup output a permutation of that result: the second dedup pass drops
exactly the incoming rows' older duplicates again. -/
theorem dropDuplicatesKeepLast_append_mergeResult {L X M : List Entry}
    (hM : IsMergeResult L X M) :
    List.Perm (dropDuplicatesKeepLast (M ++ X)) M := by
  have hMk : M.Pairwise keyNe :=
    (List.Perm.pairwise_iff (fun h e => h e.symm) hM.1).mpr
      (pairwise_keyNe_dropDuplicatesKeepLast _)
  rw [dropDuplicatesKeepLast_append, dropDuplicatesKeepLast_eq_self hMk]
  have h1 : List.Perm (M.filter (fun e => !hasKey X e))
      ((dropDuplicatesKeepLast (L ++ X)).filter (fun e => !hasKey X e)) :=
    hM.1.filter _
  have h2 : (dropDuplicatesKeepLast (L ++ X)).filter (fun e => !hasKey X e)
      = (dropDuplicatesKeepLast L).filter (fun e => !hasKey X e) := by
    rw [dropDuplicatesKeepLast_append, List.filter_append,
      filter_not_hasKey_dropDuplicatesKeepLast, List.append_nil,
      List.filter_filter]
    simp only [Bool.and_self]
  rw [h2] at h1
  have h3 := h1.append_right (dropDuplicatesKeepLast X)
  refine h3.trans ?_
  rw [← dropDuplicatesKeepLast_append]
  exact hM.1.symm

/-- Two timestamp-sorted permutations of each other whose rows have pairwise
distinct timestamps are the same list. -/
theorem eq_of_perm_of_sorted_unique_ts :
    ∀ {l₁ l₂ : List Entry}, List.Perm l₁ l₂ → l₁.Pairwise tsLe →
      l₂.Pairwise tsLe →
      (∀ a ∈ l₁, ∀ b ∈ l₁, a.timestamp = b.timestamp → a = b) → l₁ = l₂ := by
  intro l₁
  induction l₁ with
  | nil =>
    intro l₂ hp _ _ _
    exact hp.nil_eq
  | cons a t₁ ih =>
    intro l₂ hp h₁ h₂ huniq
    cases l₂ with
    | nil => exact absurd hp.symm.nil_eq (by simp)
    | cons b t₂ =>
      have hbmem : b ∈ a :: t₁ := hp.mem_iff.mpr (List.mem_cons_self b t₂)
      have hamem : a ∈ b :: t₂ := hp.mem_iff.mp (List.mem_cons_self a t₁)
      have hab : a = b := by
        rcases List.mem_cons.mp hbmem with h | hbt₁
        · exact h.symm
        · rcases List.mem_cons.mp hamem with h | hat₂
          · exact h
          · have hab1 : tsLe a b := (List.pairwise_cons.mp h₁).1 b hbt₁
            have hba1 : tsLe b a := (List.pairwise_cons.mp h₂).1 a hat₂
            exact huniq a (List.mem_cons_self a t₁) b hbmem
              (Int.le_antisymm hab1 hba1)
      subst hab
      have htail : t₁ = t₂ :=
        ih hp.cons_inv (List.pairwise_cons.mp h₁).2 (List.pairwise_cons.mp h₂).2
          (fun x hx y hy hxy =>
            huniq x (List.mem_cons_of_mem a hx) y (List.mem_cons_of_mem a hy) hxy)
      rw [htail]

/-- C3 (amended): re-uploading the same file after a merge cannot change the
ledger's rows, only possibly their order at timestamp ties: any admissible
result of merge(merge(L,X),X) is a permutation of the admissible first result
merge(L,X) (the same entries), again sorted ascending by timestamp, and it is
the very same list whenever no two retained rows share a timestamp. (Exact
list equality in general would require a stable sort, which the default
pandas sort kind does not guarantee.) -/
theorem merge_reupload_same_rows (L X M Mr : List Entry)
    (hM : IsMergeResult L X M) (hMr : IsMergeResult M X Mr) :
    List.Perm Mr M ∧ Mr.Pairwise tsLe ∧
      ((∀ a ∈ M, ∀ b ∈ M, a.timestamp = b.timestamp → a = b) → Mr = M) := by
  have hperm : List.Perm Mr M :=
    hMr.1.trans (dropDuplicatesKeepLast_append_mergeResult hM)
  refine ⟨hperm, hMr.2, ?_⟩
  intro huniq
  exact eq_of_perm_of_sorted_unique_ts hperm hMr.2 hM.2
    (fun a ha b hb => huniq a (hperm.mem_iff.mp ha) b (hperm.mem_iff.mp hb))

/-- C4: the result of merge is sorted ascending by timestamp, contains no two
entries sharing the composite key `(timestamp, current_saved)`, every retained
entry is the last occurrence of its key in the concatenated input
`existing ++ incoming`, and every input key is represented in the result. -/
theorem merge_sorted_dedup_keeps_last (L X : List Entry) :
    (merge L X).Pairwise tsLe ∧
    (merge L X).Pairwise keyNe ∧
    (∀ e ∈ merge L X,
      ∃ l₁ l₂, L ++ X = l₁ ++ e :: l₂ ∧ ∀ x ∈ l₂, dupKey x ≠ dupKey e) ∧
    (∀ x ∈ L ++ X, ∃ e ∈ merge L X, dupKey e = dupKey x) := by
  refine ⟨merge_sorted L X, merge_pairwise_keyNe L X, ?_, ?_⟩
  · intro e he
    exact mem_dropDuplicatesKeepLast_lastOcc
      ((merge_perm_dropDuplicatesKeepLast L X).mem_iff.mp he)
  · intro x hx
    obtain ⟨e, he, hk⟩ := exists_key_in_dropDuplicatesKeepLast hx
    exact ⟨e, (merge_perm_dropDuplicatesKeepLast L X).mem_iff.mpr he, hk⟩

/-- C5: when the history CSV fails to parse, the upload handler aborts the
merge, keeps the prior ledger completely unchanged and reports a recoverable
error message; the ledger changes only on a successful parse, and then to the
merge of the parsed rows. -/
theorem upload_parse_failure_keeps_ledger (ledger : List Entry) (msg : String) :
    uploadHistory ledger (Except.error msg) = (ledger, some msg) ∧
    ∀ parsed : Except String (List Entry),
      (uploadHistory ledger parsed).1 = ledger ∨
        ∃ df, parsed = Except.ok df ∧
          (uploadHistory ledger parsed).1 = merge ledger df := by
  refine ⟨rfl, ?_⟩
  intro parsed
  cases parsed with
  | ok df => exact Or.inr ⟨df, rfl, rfl⟩
  | error e => exact Or.inl rfl

/-! ### Claim theorems for the metrics calculator -/

/-- C1 counterexample: at goal=0, monthlyTarget=3000, currentSaved=1500 the
code divides by `goal or 1 = 1` and clamps, yielding progressFraction = 1,
not 0 as the claim states. -/
theorem metrics_zero_goal_counterexample :
    (computeMetrics 0 3000 1500).progress_fraction = 1 ∧
    (computeMetrics 0 3000 1500).progress_fraction ≠ 0 := by
  norm_num [computeMetrics, pyOr1]

/-- C1 (amended): when goal = 0 the divisor is substituted by 1, so
progressFraction = clamp(currentSaved, 0, 1) (not 0); likewise for
happinessFraction when monthlyTarget = 0; in particular for goal=0,
monthlyTarget=3000, currentSaved=1500 the result has progressFraction=1,
happinessFraction=0.5, remaining=0, classification=Halfway. -/
theorem metrics_zero_goal_amended (goal monthly_target current_saved : Rat) :
    (goal = 0 →
      (computeMetrics goal monthly_target current_saved).progress_fraction
        = max 0 (min current_saved 1)) ∧
    (monthly_target = 0 →
      (computeMetrics goal monthly_target current_saved).happiness_fraction
        = max 0 (min current_saved 1)) ∧
    computeMetrics 0 3000 1500 = ⟨1, 0, 1/2⟩ ∧
    classifyHappiness 1500 3000 = Happiness.Halfway := by
  refine ⟨?_, ?_, ?_, ?_⟩
  · intro h
    simp [computeMetrics, pyOr1, h]
  · intro h
    simp [computeMetrics, pyOr1, h]
  · norm_num [computeMetrics, pyOr1, Metrics.mk.injEq]
  · norm_num [classifyHappiness]

theorem metrics_zero_goal_amended_witness :
    (computeMetrics 0 5 7).progress_fraction = max 0 (min 7 1) ∧
    (computeMetrics 3 0 7).happiness_fraction = max 0 (min 7 1) :=
  ⟨(metrics_zero_goal_amended 0 5 7).1 rfl,
   (metrics_zero_goal_amended 3 0 7).2.1 rfl⟩

/-- C6: the computed remaining equals `max (goal - currentSaved) 0` and is
therefore never negative. -/
theorem remaining_eq_clamped_difference (goal monthly_target current_saved : Rat) :
    (computeMetrics goal monthly_target current_saved).remaining
      = max (goal - current_saved) 0 ∧
    0 ≤ (computeMetrics goal monthly_target current_saved).remaining :=
  ⟨rfl, le_max_right _ _⟩

/-- C7: for non-negative inputs, the classification is `Exceeded` exactly when
`currentSaved ≥ monthlyTarget`, `Halfway` exactly when it is not `Exceeded`
but `currentSaved ≥ 0.5 * monthlyTarget`, and `Behind` otherwise. -/
theorem classify_happiness_thresholds (current_saved monthly_target : Rat)
    (hcs : 0 ≤ current_saved) (hmt : 0 ≤ monthly_target) :
    (classifyHappiness current_saved monthly_target = Happiness.Exceeded
        ↔ monthly_target ≤ current_saved) ∧
    (classifyHappiness current_saved monthly_target = Happiness.Halfway
        ↔ (¬ monthly_target ≤ current_saved ∧
            1 / 2 * monthly_target ≤ current_saved)) ∧
    (classifyHappiness current_saved monthly_target = Happiness.Behind
        ↔ (¬ monthly_target ≤ current_saved ∧
            ¬ 1 / 2 * monthly_target ≤ current_saved)) := by
  unfold classifyHappiness
  by_cases h1 : monthly_target ≤ current_saved
  · rw [if_pos h1]
    exact ⟨⟨fun _ => h1, fun _ => rfl⟩,
      ⟨fun h => Happiness.noConfusion h, fun h => absurd h1 h.1⟩,
      ⟨fun h => Happiness.noConfusion h, fun h => absurd h1 h.1⟩⟩
  · rw [if_neg h1]
    by_cases h2 : 1 / 2 * monthly_target ≤ current_saved
    · rw [if_pos h2]
      exact ⟨⟨fun h => Happiness.noConfusion h, fun h => absurd h h1⟩,
        ⟨fun _ => ⟨h1, h2⟩, fun _ => rfl⟩,
        ⟨fun h => Happiness.noConfusion h, fun h => absurd h2 h.2⟩⟩
    · rw [if_neg h2]
      exact ⟨⟨fun h => Happiness.noConfusion h, fun h => absurd h h1⟩,
        ⟨fun h => Happiness.noConfusion h, fun h => absurd h.2 h2⟩,
        ⟨fun _ => ⟨h1, h2⟩, fun _ => rfl⟩⟩

theorem classify_happiness_thresholds_witness :
    (classifyHappiness 1500 3000 = Happiness.Exceeded ↔ (3000 : Rat) ≤ 1500) ∧
    (classifyHappiness 1500 3000 = Happiness.Halfway
        ↔ (¬ (3000 : Rat) ≤ 1500 ∧ 1 / 2 * 3000 ≤ (1500 : Rat))) ∧
    (classifyHappiness 1500 3000 = Happiness.Behind
        ↔ (¬ (3000 : Rat) ≤ 1500 ∧ ¬ 1 / 2 * 3000 ≤ (1500 : Rat))) :=
  classify_happiness_thresholds 1500 3000 (by norm_num) (by norm_num)

/-- C8: for non-negative inputs, both clamped fractions lie in [0, 1]. -/
theorem fractions_within_unit_interval (goal monthly_target current_saved : Rat)
    (hg : 0 ≤ goal) (hmt : 0 ≤ monthly_target) (hcs : 0 ≤ current_saved) :
    0 ≤ (computeMetrics goal monthly_target current_saved).progress_fraction ∧
    (computeMetrics goal monthly_target current_saved).progress_fraction ≤ 1 ∧
    0 ≤ (computeMetrics goal monthly_target current_saved).happiness_fraction ∧
    (computeMetrics goal monthly_target current_saved).happiness_fraction ≤ 1 :=
  ⟨le_max_left _ _, max_le (by norm_num) (min_le_right _ _),
   le_max_left _ _, max_le (by norm_num) (min_le_right _ _)⟩

theorem fractions_within_unit_interval_witness :
    0 ≤ (computeMetrics 6000 3000 3000).progress_fraction ∧
    (computeMetrics 6000 3000 3000).progress_fraction ≤ 1 ∧
    0 ≤ (computeMetrics 6000 3000 3000).happiness_fraction ∧
    (computeMetrics 6000 3000 3000).happiness_fraction ≤ 1 :=
  fractions_within_unit_interval 6000 3000 3000 (by norm_num) (by norm_num)
    (by norm_num)

/-! ### Claim theorems for the allocation engine -/

theorem round2_sub_abs_le (y : Rat) : |round2 y - y| ≤ 1 / 200 := by
  unfold round2
  have h : |y * 100 - (round (y * 100) : Rat)| ≤ 1 / 2 := by
    have := abs_sub_round (y * 100)
    push_cast at this ⊢
    exact this
  have heq : ((round (y * 100) : Int) : Rat) / 100 - y
      = -((y * 100 - ((round (y * 100) : Int) : Rat)) / 100) := by ring
  rw [heq, abs_neg, abs_div, abs_of_pos (by norm_num : (0:Rat) < 100)]
  linarith

/-- C2 counterexample: with goal_allocation=100, goal=100, totalSaved=200 the
sidebar computes Amount Allocated = 200 and Amount Remaining = 0 (clipped at
zero), so allocated + remaining = 200 differs from goal_allocation = 100 by
far more than the rounding tolerance 0.01. -/
theorem allocation_breakdown_counterexample :
    amountAllocated 100 200 ⟨"Housing", 100⟩ = 200 ∧
    amountRemaining 100 200 ⟨"Housing", 100⟩ = 0 ∧
    ¬ (|amountAllocated 100 200 ⟨"Housing", 100⟩
        + amountRemaining 100 200 ⟨"Housing", 100⟩ - (100 : Rat)| ≤ 1 / 100) := by
  refine ⟨?_, ?_, ?_⟩ <;>
    norm_num [amountAllocated, amountRemaining, round2, pyOr1, round_eq]

/-- C2 (amended): for every category row with goal_allocation ≥ 0, integer
goal ≥ 0 and totalSaved ≥ 0, PROVIDED the computed Amount Allocated does not
exceed the row's goal_allocation (which fails once the ledger total exceeds
the goal, as the counterexample shows), Amount Allocated + Amount Remaining
equals goal_allocation within the rounding tolerance ±0.01. -/
theorem allocation_breakdown_sums_to_goal (goal_val : Int) (total_saved : Rat)
    (row : AllocRow) (hga : 0 ≤ row.goal_allocation) (hT : 0 ≤ total_saved)
    (hg : 0 ≤ goal_val)
    (hle : amountAllocated goal_val total_saved row ≤ row.goal_allocation) :
    |amountAllocated goal_val total_saved row
      + amountRemaining goal_val total_saved row - row.goal_allocation|
        ≤ 1 / 100 := by
  have hmax : max (row.goal_allocation - amountAllocated goal_val total_saved row) 0
      = row.goal_allocation - amountAllocated goal_val total_saved row :=
    max_eq_left (sub_nonneg.mpr hle)
  rw [amountRemaining, hmax]
  have h := round2_sub_abs_le
    (row.goal_allocation - amountAllocated goal_val total_saved row)
  have heq : amountAllocated goal_val total_saved row
      + round2 (row.goal_allocation - amountAllocated goal_val total_saved row)
      - row.goal_allocation
      = round2 (row.goal_allocation - amountAllocated goal_val total_saved row)
        - (row.goal_allocation - amountAllocated goal_val total_saved row) := by
    ring
  rw [heq]
  linarith [h, abs_nonneg (round2 (row.goal_allocation
    - amountAllocated goal_val total_saved row)
    - (row.goal_allocation - amountAllocated goal_val total_saved row))]

theorem allocation_breakdown_sums_to_goal_witness :
    |amountAllocated 100 50 ⟨"Housing", 100⟩
      + amountRemaining 100 50 ⟨"Housing", 100⟩ - (100 : Rat)| ≤ 1 / 100 := by
  have h : (⟨"Housing", 100⟩ : AllocRow).goal_allocation = (100 : Rat) := rfl
  exact h ▸ allocation_breakdown_sums_to_goal 100 50 ⟨"Housing", 100⟩
    (by norm_num) (by norm_num) (by norm_num)
    (by norm_num [amountAllocated, round2, pyOr1, round_eq])

/-! ### Claim theorems for report building and entry append -/

/-- Concrete entries used in witnesses: w1 and w1b share the dedup key
(timestamp 1, current_saved 1000); w2 has a later timestamp. -/
def w1 : Entry := ⟨1, 6000, 3000, 1000, 5000, 0, 0⟩

/-- Same dedup key as `w1` but different goal column. -/
def w1b : Entry := ⟨1, 7000, 3000, 1000, 6000, 0, 0⟩

/-- A later entry with a distinct dedup key. -/
def w2 : Entry := ⟨2, 6000, 3000, 2000, 4000, 0, 0⟩

/-- Same timestamp as `w1` but a different current_saved, hence a distinct
dedup key that survives the dedup next to `w1` and ties with it in the sort. -/
def w1c : Entry := ⟨1, 6000, 3000, 500, 5500, 0, 0⟩

/-- C3 counterexample: with ledger [w1] and upload [w1c] — two rows sharing
timestamp 1 with different current_saved — [w1, w1c] is an admissible result
of merge(L, X), and [w1c, w1] is an admissible result of re-merging the same
X into it: the code (whose default sort kind is unstable and fixes no tie
order) does not guarantee that re-uploading the same file reproduces the
ledger list, so the claimed exact equality fails at this input. -/
theorem merge_reupload_tie_order_counterexample :
    IsMergeResult [w1] [w1c] [w1, w1c] ∧
    IsMergeResult [w1, w1c] [w1c] [w1c, w1] ∧
    ([w1c, w1] : List Entry) ≠ [w1, w1c] :=
  ⟨⟨by decide, by decide⟩, ⟨by decide, by decide⟩, by decide⟩

theorem merge_reupload_same_rows_witness :
    List.Perm [w1c, w1] [w1, w1c] ∧ ([w1c, w1] : List Entry).Pairwise tsLe ∧
      ((∀ a ∈ ([w1, w1c] : List Entry), ∀ b ∈ ([w1, w1c] : List Entry),
          a.timestamp = b.timestamp → a = b) → [w1c, w1] = [w1, w1c]) :=
  merge_reupload_same_rows [w1] [w1c] [w1, w1c] [w1c, w1]
    ⟨by decide, by decide⟩ ⟨by decide, by decide⟩

theorem merge_sorted_dedup_keeps_last_witness :
    (∃ l₁ l₂, [w2, w1] ++ [w1b] = l₁ ++ w1b :: l₂ ∧
      ∀ x ∈ l₂, dupKey x ≠ dupKey w1b) ∧
    (∃ e ∈ merge [w2, w1] [w1b], dupKey e = dupKey w1) :=
  ⟨(merge_sorted_dedup_keeps_last [w2, w1] [w1b]).2.2.1 w1b (by decide),
   (merge_sorted_dedup_keeps_last [w2, w1] [w1b]).2.2.2 w1 (by decide)⟩

/-- C9: the report takes its goal from the last ledger row (0 when empty),
computes pct_to_goal as totalSaved / max(goal, 1), and its recent-history
section is the 5-entry suffix of the timestamp-sorted ledger, hence sorted
ascending and drawn from the ledger. -/
theorem build_report_spec (ledger : List Entry) :
    (ledger = [] → (buildReport ledger).goal_val = 0) ∧
    (∀ e, ledger.getLast? = some e → (buildReport ledger).goal_val = e.goal) ∧
    (buildReport ledger).total_saved = totalSavedHistory ledger ∧
    (buildReport ledger).pct_to_goal
      = (buildReport ledger).total_saved / max (buildReport ledger).goal_val 1 ∧
    List.IsSuffix (buildReport ledger).recent (sortByTimestamp ledger) ∧
    (buildReport ledger).recent.length = min 5 ledger.length ∧
    (buildReport ledger).recent.Pairwise tsLe ∧
    (∀ e ∈ (buildReport ledger).recent, e ∈ ledger) := by
  have hsuffix : List.IsSuffix (buildReport ledger).recent (sortByTimestamp ledger) :=
    List.drop_suffix _ _
  have hlen : (sortByTimestamp ledger).length = ledger.length :=
    (List.perm_insertionSort tsLe ledger).length_eq
  refine ⟨?_, ?_, rfl, rfl, hsuffix, ?_, ?_, ?_⟩
  · intro h
    subst h
    rfl
  · intro e he
    simp [buildReport, he]
  · show ((sortByTimestamp ledger).drop ((sortByTimestamp ledger).length - 5)).length
      = min 5 ledger.length
    rw [List.length_drop, hlen]
    omega
  · exact (List.sorted_insertionSort tsLe ledger).sublist hsuffix.sublist
  · intro e he
    exact (List.perm_insertionSort tsLe ledger).mem_iff.mp (hsuffix.sublist.mem he)

theorem build_report_spec_witness :
    (buildReport ([] : List Entry)).goal_val = 0 ∧
    (buildReport [w1, w2]).goal_val = w2.goal ∧
    w1 ∈ [w1, w2] :=
  ⟨(build_report_spec []).1 rfl,
   (build_report_spec [w1, w2]).2.1 w2 (by decide),
   (build_report_spec [w1, w2]).2.2.2.2.2.2.2 w1 (by decide)⟩

/-- C10: Save Entry appends the new record at the end: the prior rows are
unchanged in value and order, the new record is last, and no dedup or
re-sort happens — if the new record shares the dedup key with an existing
row, the resulting table holds both (key uniqueness is violated until the
next merge). -/
theorem append_entry_frame (ledger : List Entry) (e : Entry) :
    appendEntry ledger e = ledger ++ [e] ∧
    (appendEntry ledger e).take ledger.length = ledger ∧
    (appendEntry ledger e).getLast? = some e ∧
    ((∃ x ∈ ledger, dupKey x = dupKey e) →
      ¬ (appendEntry ledger e).Pairwise keyNe ∧
        2 ≤ (appendEntry ledger e).countP (fun x => decide (dupKey x = dupKey e))) := by
  refine ⟨rfl, List.take_left ledger [e], List.getLast?_concat ledger, ?_⟩
  rintro ⟨x, hx, hk⟩
  constructor
  · intro hp
    exact (List.pairwise_append.mp hp).2.2 x hx e (List.mem_singleton_self e) hk
  · show 2 ≤ (ledger ++ [e]).countP (fun x => decide (dupKey x = dupKey e))
    rw [List.countP_append]
    have h1 : 0 < ledger.countP (fun y => decide (dupKey y = dupKey e)) :=
      List.countP_pos_iff.mpr ⟨x, hx, by simp [hk]⟩
    have h2 : List.countP (fun y => decide (dupKey y = dupKey e)) [e] = 1 := by
      simp
    omega

theorem append_entry_frame_witness :
    ¬ (appendEntry [w1] w1b).Pairwise keyNe ∧
      2 ≤ (appendEntry [w1] w1b).countP (fun x => decide (dupKey x = dupKey w1b)) :=
  (append_entry_frame [w1] w1b).2.2.2 ⟨w1, by decide, by decide⟩

end SavingsApp
